import Mathlib

/-!
Verification of the candidate ranking and deduplication engine

A shallow embedding of the core of the `epstein-media-finder` repository:

* `hamming` and the duplicate clusterer of `scripts/09_cluster_duplicates.py`,
* `compute_interest_score` and `filter_underreported_candidates` of
  `utils/social_checker.py`,
* the pipeline state store of `utils/state_manager.py`, and
* the stage orchestrator of `run_pipeline.py`.

Records are Python dictionaries; we model them as association lists from
string keys to `Val`, a small universe of Python values (None, str, int,
float, bool, dict).  Python floats are modelled as exact rationals: the
claims under verification are about control flow, counting and ordering,
not about binary rounding.  Code that can raise an uncaught exception is
modelled in `Except Unit`; `try/except` blocks that swallow errors become
total functions returning the fallback value.
-/

set_option linter.unusedVariables false
set_option autoImplicit false

namespace MediaFinder

mutual

/-- Python values occurring in the records handled by the engine.
`dict` uses a mutually defined association list so that structural
(kernel-evaluable) decidable equality can be defined. -/
inductive Val where
  | none
  | str (s : String)
  | int (n : Int)
  | rat (q : ℚ)
  | bool (b : Bool)
  | dict (d : VDict)
deriving Repr

/-- Association list of string keys to `Val`s, the model of a nested
Python dict value. -/
inductive VDict where
  | nil
  | cons (k : String) (v : Val) (rest : VDict)
deriving Repr

end

mutual

/-- Structural boolean equality on `Val`. -/
def Val.beq : Val → Val → Bool
  | .none, .none => true
  | .str a, .str b => a == b
  | .int a, .int b => a == b
  | .rat a, .rat b => a == b
  | .bool a, .bool b => a == b
  | .dict a, .dict b => VDict.beq a b
  | _, _ => false

/-- Structural boolean equality on `VDict`. -/
def VDict.beq : VDict → VDict → Bool
  | .nil, .nil => true
  | .cons k v r, .cons k2 v2 r2 => k == k2 && Val.beq v v2 && VDict.beq r r2
  | _, _ => false

end

mutual

/-- Soundness of `Val.beq` for propositional equality. -/
theorem valBeq_sound : ∀ {a b : Val}, Val.beq a b = true → a = b
  | .none, .none, _ => rfl
  | .str a, .str b, h => by simpa [Val.beq] using h
  | .int a, .int b, h => by simpa [Val.beq] using h
  | .rat a, .rat b, h => by simpa [Val.beq] using h
  | .bool a, .bool b, h => by simpa [Val.beq] using h
  | .dict a, .dict b, h =>
      congrArg Val.dict (vdictBeq_sound (by simpa [Val.beq] using h))

/-- Soundness of `VDict.beq` for propositional equality. -/
theorem vdictBeq_sound : ∀ {a b : VDict}, VDict.beq a b = true → a = b
  | .nil, .nil, _ => rfl
  | .cons k v r, .cons k2 v2 r2, h => by
      simp only [VDict.beq, Bool.and_eq_true, beq_iff_eq] at h
      rw [h.1.1, valBeq_sound h.1.2, vdictBeq_sound h.2]

end

mutual

/-- Reflexivity of `Val.beq`. -/
theorem valBeq_refl : ∀ (a : Val), Val.beq a a = true
  | .none => rfl
  | .str a => by simp [Val.beq]
  | .int a => by simp [Val.beq]
  | .rat a => by simp [Val.beq]
  | .bool a => by simp [Val.beq]
  | .dict a => by simpa [Val.beq] using vdictBeq_refl a

/-- Reflexivity of `VDict.beq`. -/
theorem vdictBeq_refl : ∀ (a : VDict), VDict.beq a a = true
  | .nil => rfl
  | .cons k v r => by simp [VDict.beq, valBeq_refl v, vdictBeq_refl r]

end

instance : DecidableEq Val := fun a b =>
  decidable_of_iff (Val.beq a b = true)
    ⟨valBeq_sound, fun h => h ▸ valBeq_refl a⟩

instance : DecidableEq VDict := fun a b =>
  decidable_of_iff (VDict.beq a b = true)
    ⟨vdictBeq_sound, fun h => h ▸ vdictBeq_refl a⟩

/-- A record (a Python dict with string keys), e.g. one CSV row or one
JSON object of the pipeline. -/
abbrev Rec : Type := List (String × Val)

instance {ε α : Type _} [DecidableEq ε] [DecidableEq α] : DecidableEq (Except ε α) := fun a b =>
  match a, b with
  | .error e, .error f => decidable_of_iff (e = f) (by simp)
  | .ok x, .ok y => decidable_of_iff (x = y) (by simp)
  | .error _, .ok _ => isFalse (by simp)
  | .ok _, .error _ => isFalse (by simp)

/-- Python `d.get(k)` as an `Option`: first binding of the key, if any. -/
def recGet? (r : Rec) (k : String) : Option Val :=
  List.lookup k r

/-- Python `d.get(k, default)`. -/
def recGetD (r : Rec) (k : String) (d : Val) : Val :=
  (recGet? r k).getD d

/-- Python `d[k] = v`: replace the first binding of `k`, else append the
new binding (dicts preserve insertion order). -/
def recSet (r : Rec) (k : String) (v : Val) : Rec :=
  match r with
  | [] => [(k, v)]
  | (k', v') :: rest =>
      if k' = k then (k', v) :: rest else (k', v') :: recSet rest k v

/-- Python truthiness of a value (`bool(x)`). -/
def truthy : Val → Bool
  | .none => false
  | .str s => s ≠ ""
  | .int n => n ≠ 0
  | .rat q => q ≠ 0
  | .bool b => b
  | .dict d => d ≠ .nil

/-- Python `a or b` on values: `a` when truthy, else `b`. -/
def pyOr (a b : Val) : Val :=
  if truthy a then a else b

/-- Python `==` on the value types occurring in records.  Numeric types
(int, float, bool) compare by value across constructors.  Nested dicts
are compared structurally; the phash fields this is applied to are
strings, so the dict corner never matters for the claims. -/
def valEq : Val → Val → Bool
  | .none, .none => true
  | .str a, .str b => a = b
  | .int a, .int b => a = b
  | .rat a, .rat b => a = b
  | .bool a, .bool b => a = b
  | .int a, .rat b => (a : ℚ) = b
  | .rat a, .int b => a = (b : ℚ)
  | .bool a, .int b => (if a then (1 : Int) else 0) = b
  | .int a, .bool b => a = (if b then (1 : Int) else 0)
  | .bool a, .rat b => (if a then (1 : ℚ) else 0) = b
  | .rat a, .bool b => a = (if b then (1 : ℚ) else 0)
  | .dict a, .dict b => a = b
  | _, _ => false

/-- Helper for `splitComma`: `acc` holds the current piece reversed. -/
def splitCommaAux : List Char → List Char → List String
  | [], acc => [String.mk acc.reverse]
  | c :: rest, acc =>
      if c = ',' then String.mk acc.reverse :: splitCommaAux rest []
      else splitCommaAux rest (c :: acc)

/-- Python `s.split(',')`: split on every comma, keeping empty pieces
(`''.split(',') == ['']`). -/
def splitComma (s : String) : List String := splitCommaAux s.data []

/-- Python `s.lower()` (ASCII case folding, which covers every string
the engine compares). -/
def lowerString (s : String) : String := String.mk (s.data.map Char.toLower)

/-- Value of a decimal digit character. -/
def digitVal (c : Char) : Nat := c.toNat - 48

/-- Natural number denoted by a block of decimal digit characters. -/
def digitsVal (l : List Char) : Nat :=
  l.foldl (fun a c => a * 10 + digitVal c) 0

/-- Value of a hexadecimal digit character, if it is one. -/
def hexDigitVal? (c : Char) : Option Nat :=
  if '0' ≤ c ∧ c ≤ '9' then some (c.toNat - 48)
  else if 'a' ≤ c ∧ c ≤ 'f' then some (c.toNat - 87)
  else if 'A' ≤ c ∧ c ≤ 'F' then some (c.toNat - 55)
  else Option.none

/-- Fold a nonempty block of hex digit characters to its value. -/
def hexDigits? (l : List Char) : Option Nat :=
  match l with
  | [] => Option.none
  | _ =>
    l.foldl (fun acc c =>
      match acc, hexDigitVal? c with
      | some a, some d => some (a * 16 + d)
      | _, _ => Option.none) (some 0)

/-- Python `int(s, 16)`: an optional `0x`/`0X` prefix followed by hex
digits.  (Surrounding whitespace, a sign and `_` separators, which
Python also accepts, do not occur in perceptual-hash strings and are
not modelled.) -/
def parseHex (s : String) : Option Nat :=
  match s.data with
  | '0' :: 'x' :: rest => hexDigits? rest
  | '0' :: 'X' :: rest => hexDigits? rest
  | l => hexDigits? l

/-- Python `int(s)` on a string: optional sign then decimal digits.
(Whitespace and `_` separators are not modelled.) -/
def parseInt (s : String) : Option Int :=
  let core : List Char → Option Nat := fun l =>
    if l ≠ [] ∧ l.all Char.isDigit then some (digitsVal l) else Option.none
  match s.data with
  | '-' :: rest => (core rest).map (fun n => -(n : Int))
  | '+' :: rest => (core rest).map (fun n => (n : Int))
  | l => (core l).map (fun n => (n : Int))

/-- Exponent suffix of a Python float literal: empty, or `e`/`E` with an
optional sign and digits. -/
def parseExpSuffix : List Char → Option Int
  | [] => some 0
  | 'e' :: rest => parseExpSuffixAux rest
  | 'E' :: rest => parseExpSuffixAux rest
  | _ => Option.none
where
  /-- Signed digit block after the `e`. -/
  parseExpSuffixAux : List Char → Option Int
    | '-' :: l => if l ≠ [] ∧ l.all Char.isDigit then some (-(digitsVal l : Int)) else Option.none
    | '+' :: l => if l ≠ [] ∧ l.all Char.isDigit then some (digitsVal l : Int) else Option.none
    | l => if l ≠ [] ∧ l.all Char.isDigit then some (digitsVal l : Int) else Option.none

/-- Python `float(s)` on a string: optional sign, digits with an optional
decimal point (at least one digit overall), optional exponent.  The
value is exact as a rational.  (`inf`/`nan`, whitespace and `_`
separators are not modelled.) -/
def parseFloat (s : String) : Option ℚ :=
  let (neg, cs) :=
    match s.data with
    | '-' :: t => (true, t)
    | '+' :: t => (false, t)
    | t => (false, t)
  let (ip, r1) := cs.span Char.isDigit
  let (fp, r2) :=
    match r1 with
    | '.' :: t => t.span Char.isDigit
    | _ => ([], r1)
  if ip = [] ∧ fp = [] then Option.none
  else
    match parseExpSuffix r2 with
    | some e =>
        let mant : ℚ := (digitsVal ip : ℚ) + (digitsVal fp : ℚ) / ((10 : ℚ) ^ fp.length)
        let v := mant * (10 : ℚ) ^ e
        some (if neg then -v else v)
    | Option.none => Option.none

/-- Python `float(x)` on a value; `.error` models a raised
`TypeError`/`ValueError`. -/
def pyFloat : Val → Except Unit ℚ
  | .none => .error ()
  | .str s =>
      match parseFloat s with
      | some q => .ok q
      | Option.none => .error ()
  | .int n => .ok (n : ℚ)
  | .rat q => .ok q
  | .bool b => .ok (if b then 1 else 0)
  | .dict _ => .error ()

/-- Truncation of a rational toward zero, the behaviour of Python
`int(float)`. -/
def ratTrunc (q : ℚ) : Int :=
  if 0 ≤ q then ⌊q⌋ else ⌈q⌉

/-- Python `int(x)` on a value; `.error` models a raised exception. -/
def pyInt : Val → Except Unit Int
  | .none => .error ()
  | .str s =>
      match parseInt s with
      | some n => .ok n
      | Option.none => .error ()
  | .int n => .ok n
  | .rat q => .ok (ratTrunc q)
  | .bool b => .ok (if b then 1 else 0)
  | .dict _ => .error ()

/-- Python `str(x)`.  For floats only the shape matters to the engine
(the result is compared against `'true'`/`'1'`); a float rendering
always contains a `.`, which the chosen representation preserves. -/
def pyStr : Val → String
  | .none => "None"
  | .str s => s
  | .int n => toString n
  | .rat q => if q.den = 1 then toString q.num ++ ".0" else toString q
  | .bool b => if b then "True" else "False"
  | .dict _ => "\x7b...\x7d"

/-- Round half to even (Python `round`) to an integer. -/
def roundHalfEven (x : ℚ) : Int :=
  let f := ⌊x⌋
  let r := x - (f : ℚ)
  if r < 1/2 then f
  else if 1/2 < r then f + 1
  else if f % 2 = 0 then f else f + 1

/-- Python `round(x, 2)`. -/
def pyRound2 (q : ℚ) : ℚ :=
  (roundHalfEven (q * 100) : ℚ) / 100

/-!
Interest scorer (`utils/social_checker.py`, `compute_interest_score`)

The photographic-variance signal opens the image at `local_path` with
PIL; we model the filesystem and decoder as `env : String → Option ℚ`,
where `env p = some sd` means the file at `p` exists and decodes to a
grayscale image of standard deviation `sd`, and `Option.none` covers a
missing file as well as any read/decode failure (all swallowed by the
surrounding `try`).
-/

/-- The fixed `strong` keyword set of `compute_interest_score`. -/
def strongKeywords : List String :=
  ["video", "photo", "flight", "payment", "bank", "phone", "escort",
   "model", "minor", "underage", "nude", "sex", "passport", "log"]

/-- Keyword signal: split `keywords_found` on commas, drop empty pieces,
add twice the weight for strong keywords and the weight otherwise. -/
def keywordScore (s : String) (keyword_weight : ℚ) : ℚ :=
  let kws := (splitComma s).filter (fun k => k ≠ "")
  kws.foldl (fun acc k =>
    acc + (if k ∈ strongKeywords then keyword_weight * 2 else keyword_weight)) 0

/-- Uniqueness signal: `1.0 / (1 + dup_count)` times the weight, where
`dup_count` counts the records of `items` whose `phash` compares equal
(Python `==`) to this record's `phash`; the count is taken only when
`items` is a nonempty list and the `phash` is truthy. -/
def uniquenessContribution (item : Rec) (items : List Rec) (uniqueness_weight : ℚ) : ℚ :=
  let phash := recGetD item "phash" (.str "")
  let dup_count : Nat :=
    if items ≠ [] ∧ truthy phash then
      (items.filter (fun it => valEq (recGetD it "phash" .none) phash)).length
    else 0
  (1 / (1 + (dup_count : ℚ))) * uniqueness_weight

/-- Photographic-variance signal: when `local_path` is a truthy string
naming a readable image, `min 3.0 (stddev / 30.0)`; on a missing or
unreadable file, or a non-string path, the `try` swallows the failure
and the signal is 0. -/
def photoContribution (item : Rec) (env : String → Option ℚ) : ℚ :=
  match recGetD item "local_path" .none with
  | .str p =>
      if p ≠ "" then
        match env p with
        | some sd => min 3 (sd / 30)
        | Option.none => 0
      else 0
  | _ => 0

/-- Face signal: `min 2.0 (face_count * 0.8)` when `int(face_count or 0)`
is positive; a failing conversion is swallowed by the `try` and
contributes 0. -/
def faceContribution (item : Rec) : ℚ :=
  match pyInt (pyOr (recGetD item "face_count" .none) (.int 0)) with
  | .ok n => if 0 < n then min 2 ((n : ℚ) * 0.8) else 0
  | .error _ => 0

/-- First half of the sensitivity signal: `+2.0` when
`str(likely_nsfw).lower()` is `'true'` or `'1'`. -/
def nsfwContribution (item : Rec) : ℚ :=
  if lowerString (pyStr (recGetD item "likely_nsfw" (.bool false))) ∈ ["true", "1"] then 2
  else 0

/-- Second half of the sensitivity signal: `+0.5` when
`float(skin_fraction or 0.0) > 0.20`.  A failing conversion is caught
by the enclosing `try` after the nsfw bonus was already added, so only
this half degrades to 0. -/
def skinContribution (item : Rec) : ℚ :=
  match pyFloat (pyOr (recGetD item "skin_fraction" .none) (.rat 0)) with
  | .ok sf => if 0.2 < sf then 0.5 else 0
  | .error _ => 0

/-- Python `sum(int(v or 0) for v in rev.values())`: any failing conversion
aborts the sum (the enclosing `try` then drops the whole signal). -/
def sumIntVDict : VDict → Except Unit Int
  | .nil => .ok 0
  | .cons _ v rest =>
      match pyInt (pyOr v (.int 0)), sumIntVDict rest with
      | .ok a, .ok b => .ok (a + b)
      | _, _ => .error ()

/-- Reverse-image-search novelty signal: total the match counts
(`reverse_search_matches` is a provider→count dict, or a bare count);
0 matches give `+2.0`, fewer than 3 give `+1.0`.  A failing conversion
is swallowed by the `try` and the signal is 0. -/
def noveltyContribution (item : Rec) : ℚ :=
  let rev := pyOr (recGetD item "reverse_search_matches" .none) (.dict .nil)
  let total_rev : Except Unit Int :=
    match rev with
    | .dict d => sumIntVDict d
    | v => pyInt (pyOr v (.int 0))
  match total_rev with
  | .ok t => if t = 0 then 2 else if t < 3 then 1 else 0
  | .error _ => 0

/-- The scorer `compute_interest_score(item, items, keyword_weight, uniqueness_weight)`.
The keyword block is the only part of the body not wrapped in a
`try/except`: `item.get('keywords_found', '').split(',')` raises when
the stored value is present but not a string, and that exception
propagates to the caller (modelled by `.error`).  All other signals are
total.  The result is the rounded sum of the six signal contributions. -/
def compute_interest_score (item : Rec) (items : List Rec)
    (env : String → Option ℚ)
    (keyword_weight : ℚ := 3) (uniqueness_weight : ℚ := 3) : Except Unit ℚ :=
  match recGetD item "keywords_found" (.str "") with
  | .str s =>
      .ok (pyRound2 (keywordScore s keyword_weight
        + uniquenessContribution item items uniqueness_weight
        + photoContribution item env
        + faceContribution item
        + nsfwContribution item
        + skinContribution item
        + noveltyContribution item))
  | _ => .error ()

/-!
Candidate filter (`utils/social_checker.py`,
`filter_underreported_candidates`)

Python mutates each record in place (`it['_interest_score'] = interest`)
while iterating over the very list passed to the scorer, so the scorer
of the i-th record sees the first i records already annotated.  The
state-passing translation returns the final (fully annotated) list
together with the retained sublist.
-/

/-- Python `float(it.get('virality_score', 0) or 0)`. -/
def readVirality (it : Rec) : Except Unit ℚ :=
  pyFloat (pyOr (recGetD it "virality_score" (.int 0)) (.int 0))

/-- Python `it['_interest_score'] = interest`. -/
def annotateInterest (it : Rec) (q : ℚ) : Rec :=
  recSet it "_interest_score" (.rat q)

/-- Sort key `x['_interest_score']`.  Every record entering the sort was
annotated with a rational just before, so the fallback branch is never
taken on the lists the filter sorts. -/
def interestKey (x : Rec) : ℚ :=
  match recGet? x "_interest_score" with
  | some (.rat q) => q
  | _ => 0

/-- The loop of `filter_underreported_candidates`: `done` is the already
annotated prefix of the list, `todo` the rest.  Each step converts the
virality score, scores the record against the current list, annotates
it and retains it iff `vir < virality_threshold` and
`interest >= min_interest`. -/
def filterGo (env : String → Option ℚ) (virality_threshold min_interest : ℚ) :
    List Rec → List Rec → Except Unit (List Rec × List Rec)
  | done, [] => .ok (done, [])
  | done, it :: rest =>
      match readVirality it with
      | .error e => .error e
      | .ok vir =>
        match compute_interest_score it (done ++ it :: rest) env with
        | .error e => .error e
        | .ok interest =>
          let it2 := annotateInterest it interest
          match filterGo env virality_threshold min_interest (done ++ [it2]) rest with
          | .error e => .error e
          | .ok (final, kept) =>
              .ok (final,
                if vir < virality_threshold ∧ min_interest ≤ interest then it2 :: kept else kept)

/-- Python `sorted(scored, key=lambda x: x['_interest_score'], reverse=True)`:
Python's sort is a stable merge sort; `reverse=True` flips the
comparison, keeping ties in original order. -/
def sortedDesc (l : List Rec) : List Rec :=
  l.mergeSort (fun a b => interestKey b ≤ interestKey a)

/-- The filter `filter_underreported_candidates(items, virality_threshold, min_interest)`:
returns the final annotated list (the in-place effect on the caller's
records) and the retained records sorted by interest descending. -/
def filter_underreported_candidates (items : List Rec) (env : String → Option ℚ)
    (virality_threshold : ℚ := 5) (min_interest : ℚ := 3.5) :
    Except Unit (List Rec × List Rec) :=
  match filterGo env virality_threshold min_interest [] items with
  | .error e => .error e
  | .ok (final, kept) => .ok (final, sortedDesc kept)

/-!
Duplicate clusterer (`scripts/09_cluster_duplicates.py`)

CSV rows as read by `csv.DictReader`: `r['local_path']` is accessed
directly (the column is always present) and `r.get('phash', '')`
defaults to the empty string, so a row is modelled as a structure with
two string fields.  The script fixes `threshold = 10`; the functions
below take it as a parameter and the script's behaviour is the instance
at 10.
-/

/-- Helper for `natPopCount`: structural recursion on a fuel argument
that bounds the number of halvings, so the kernel can evaluate it. -/
def popCountAux : Nat → Nat → Nat
  | 0, _ => 0
  | fuel + 1, n => if n = 0 then 0 else n % 2 + popCountAux fuel (n / 2)

/-- Python `int.bit_count()`: number of set bits. -/
def natPopCount (n : Nat) : Nat := popCountAux n n

/-- The distance `hamming(a, b)`: 999 when either string is empty (`not a or not b`),
otherwise parse both as hex with `int(_, 16)` — which raises `ValueError`
on a non-hex string, modelled by `.error` — and popcount the XOR. -/
def hamming (a b : String) : Except Unit Nat :=
  if a = "" ∨ b = "" then .ok 999
  else
    match parseHex a, parseHex b with
    | some ha, some hb => .ok (natPopCount (ha ^^^ hb))
    | _, _ => .error ()

/-- One CSV row of `media_hashes.csv`: `local_path` is always present;
a missing `phash` column is read as `''` by `r.get('phash', '')`. -/
structure Row where
  local_path : String
  phash : String
deriving DecidableEq, Repr

/-- Inner loop of the clusterer: scan the rows after the seed, skip rows
whose `local_path` was already assigned, and absorb a row into the
cluster when its Hamming distance *to the seed* is at most the
threshold, marking its path used. -/
def absorb (t : Nat) (seed : Row) : List Row → List String → Except Unit (List Row × List String)
  | [], used => .ok ([], used)
  | s :: rest, used =>
      if s.local_path ∈ used then absorb t seed rest used
      else
        match hamming seed.phash s.phash with
        | .error e => .error e
        | .ok d =>
            if d ≤ t then
              match absorb t seed rest (s.local_path :: used) with
              | .error e => .error e
              | .ok (ms, used2) => .ok (s :: ms, used2)
            else absorb t seed rest used

/-- Outer loop of the clusterer: iterate rows in order, skip rows whose
path is already assigned, open a cluster with each remaining row as
seed, absorb later rows, and keep only clusters with more than one
member. -/
def clusterize (t : Nat) : List Row → List String → Except Unit (List (List Row) × List String)
  | [], used => .ok ([], used)
  | r :: rest, used =>
      if r.local_path ∈ used then clusterize t rest used
      else
        match absorb t r rest (r.local_path :: used) with
        | .error e => .error e
        | .ok (ms, used2) =>
          let cluster := r :: ms
          match clusterize t rest used2 with
          | .error e => .error e
          | .ok (cls, used3) =>
              .ok ((if 1 < cluster.length then cluster :: cls else cls), used3)

/-- The clusters of `main`, before projecting members to their paths. -/
def rowClusters (t : Nat) (rows : List Row) : Except Unit (List (List Row)) :=
  match clusterize t rows [] with
  | .error e => .error e
  | .ok (cls, _) => .ok cls

/-- The JSON written by `main`: each cluster as its members'
`local_path`s, in input order. -/
def duplicate_clusters (t : Nat) (rows : List Row) : Except Unit (List (List String)) :=
  match rowClusters t rows with
  | .error e => .error e
  | .ok cls => .ok (cls.map (fun c => c.map (fun r => r.local_path)))

/-!
Pipeline state store (`utils/state_manager.py`)

`load_state` opens the JSON document at a fixed path; a missing file
returns `{}` and any open/parse failure is swallowed by the
`try/except`, also returning `{}`.  The on-disk situation is modelled
by `StateFile`.
-/

/-- The state document on disk: absent, unreadable/corrupt (anything
that makes `open`/`json.load` raise), or a parsed flat object. -/
inductive StateFile where
  | missing
  | corrupt
  | doc (m : List (String × Val))
deriving Repr

/-- Python `load_state()`: the parsed document, with both failure cases
degrading to the empty dict. -/
def load_state : StateFile → List (String × Val)
  | .missing => []
  | .corrupt => []
  | .doc m => m

/-- The reader `get(key, default)` of the state manager. -/
def stateGet (fs : StateFile) (key : String) (default : Val) : Val :=
  ((load_state fs).lookup key).getD default

/-- The writer `set_(key, value)` of the state manager, as its effect on the
document (load, update one key, rewrite). -/
def stateSet (fs : StateFile) (key : String) (value : Val) : StateFile :=
  .doc (recSet (load_state fs) key value)

/-!
Stage orchestrator (`run_pipeline.py`)

`main` iterates the ordered stage list; stage executors are the
external subprocesses, modelled by their success predicate
`execOk : String → Bool` (none of the repository's stage scripts writes
any `step_` key, so the executors do not touch the flags the
orchestrator reads).  Between the `get` and the `set_` of one iteration
nothing else touches the document, so the file is threaded as a value.
-/

/-- What happened at one visited stage. -/
inductive StageOutcome where
  | skipped
  | ranOk
  | ranFailed
deriving DecidableEq, Repr

/-- The loop of `main`: skip a stage whose `step_<name>` flag is truthy;
otherwise run it; on failure return immediately (no flag written); on
success set `step_<name> = true` and continue.  Returns the final state
document and the trace of visited stages. -/
def runStages (execOk : String → Bool) :
    List String → List (String × Val) → List (String × Val) × List (String × StageOutcome)
  | [], st => (st, [])
  | n :: rest, st =>
      if truthy ((st.lookup ("step_" ++ n)).getD (.bool false)) then
        let (st2, tr) := runStages execOk rest st
        (st2, (n, .skipped) :: tr)
      else if execOk n then
        let st1 := recSet st ("step_" ++ n) (.bool true)
        let (st2, tr) := runStages execOk rest st1
        (st2, (n, .ranOk) :: tr)
      else (st, [(n, .ranFailed)])

/-!
Specification-side definitions

Definitions below transcribe sentences of the specification (not the
code); the theorems compare them with the functions above.
-/

/-- The uniqueness signal as the specification words it: `U / (1 + count)`
where `count` is the number of *other* records — the record itself
excluded — whose phash string is identical to the record's. -/
def spec_uniqueness_contribution (item : Rec) (items : List Rec) (U : ℚ) : ℚ :=
  let count := ((items.erase item).filter
    (fun it => recGetD it "phash" (.str "") == recGetD item "phash" (.str ""))).length
  U / (1 + (count : ℚ))

/-- The uniqueness count as the code actually takes it: all records of
the set whose phash compares equal (Python `==`) to the record's phash,
the record itself included when it occurs in the set. -/
def spec_uniqueness_count (item : Rec) (items : List Rec) : Nat :=
  (items.filter (fun it => valEq (recGetD it "phash" .none) (recGetD item "phash" (.str "")))).length

/-- The orchestration algorithm as the specification words it: iterate
stages in order; a stage whose `step_<name>` flag reads true is skipped
without invoking its executor; otherwise the executor runs — on failure
the whole run stops with the flag not set, on success the flag is set
to true and iteration continues. -/
inductive SpecRun (execOk : String → Bool) :
    List (String × Val) → List String → List (String × Val) →
    List (String × StageOutcome) → Prop
  | done (st) : SpecRun execOk st [] st []
  | skip {st st2 tr} (n : String) (rest : List String)
      (hflag : truthy ((st.lookup ("step_" ++ n)).getD (.bool false)) = true)
      (h : SpecRun execOk st rest st2 tr) :
      SpecRun execOk st (n :: rest) st2 ((n, .skipped) :: tr)
  | stop {st} (n : String) (rest : List String)
      (hflag : truthy ((st.lookup ("step_" ++ n)).getD (.bool false)) = false)
      (hexec : execOk n = false) :
      SpecRun execOk st (n :: rest) st [(n, .ranFailed)]
  | step {st st2 tr} (n : String) (rest : List String)
      (hflag : truthy ((st.lookup ("step_" ++ n)).getD (.bool false)) = false)
      (hexec : execOk n = true)
      (h : SpecRun execOk (recSet st ("step_" ++ n) (.bool true)) rest st2 tr) :
      SpecRun execOk st (n :: rest) st2 ((n, .ranOk) :: tr)

/-- The retention condition of the candidate filter, read off the
annotated record itself: its virality converts to a value below the
threshold and its attached interest score is at least the minimum. -/
def KeepCond (virality_threshold min_interest : ℚ) (r : Rec) : Prop :=
  ∃ v q, readVirality r = .ok v ∧ v < virality_threshold ∧
    recGet? r "_interest_score" = some (Val.rat q) ∧ min_interest ≤ q

/-!
Basic lemmas about record update
-/

/-- Reading the key just written. -/
theorem recGet?_recSet_self (r : Rec) (k : String) (v : Val) :
    recGet? (recSet r k v) k = some v := by
  induction r with
  | nil => simp [recGet?, recSet, List.lookup]
  | cons p rest ih =>
      obtain ⟨k2, v2⟩ := p
      by_cases h : k2 = k
      · subst h; simp [recSet, recGet?, List.lookup]
      · simpa [recSet, recGet?, List.lookup, h,
          beq_eq_false_iff_ne.mpr (Ne.symm h)] using ih

/-- Writing one key does not change any other key. -/
theorem recGet?_recSet_ne (r : Rec) (k k2 : String) (v : Val) (h : k2 ≠ k) :
    recGet? (recSet r k v) k2 = recGet? r k2 := by
  induction r with
  | nil => simp [recGet?, recSet, List.lookup, beq_eq_false_iff_ne.mpr h]
  | cons p rest ih =>
      obtain ⟨k3, v3⟩ := p
      by_cases h3 : k3 = k
      · subst h3
        simp [recSet, recGet?, List.lookup, beq_eq_false_iff_ne.mpr h]
      · by_cases h4 : k2 = k3
        · subst h4
          simp [recSet, recGet?, List.lookup, h3]
        · simpa [recSet, recGet?, List.lookup, h3,
            beq_eq_false_iff_ne.mpr h4] using ih

/-- C8: `stateGet key default` returns the stored value when the state
document exists, parses and contains the key, and returns the default
when the key is absent or the file is missing or unreadable/corrupt;
corruption is swallowed into the empty document, never raised. -/
theorem stateGet_spec (fs : StateFile) (k : String) (d : Val) :
    (∀ m v, fs = .doc m → m.lookup k = some v → stateGet fs k d = v) ∧
    (∀ m, fs = .doc m → m.lookup k = Option.none → stateGet fs k d = d) ∧
    stateGet .missing k d = d ∧ stateGet .corrupt k d = d := by
  refine ⟨?_, ?_, rfl, rfl⟩
  · intro m v hfs hl; subst hfs; simp [stateGet, load_state, hl]
  · intro m hfs hl; subst hfs; simp [stateGet, load_state, hl]

/-- Witness for C8 at a concrete state document. -/
theorem stateGet_spec_witness :
    stateGet (.doc [("step_fetch", Val.bool true)]) "step_fetch" (.bool false) = Val.bool true ∧
    stateGet (.doc [("step_fetch", Val.bool true)]) "step_hash" (.bool false) = Val.bool false ∧
    stateGet .missing "step_fetch" (.bool false) = Val.bool false ∧
    stateGet .corrupt "step_fetch" (.bool false) = Val.bool false :=
  ⟨(stateGet_spec (.doc [("step_fetch", Val.bool true)]) "step_fetch" (.bool false)).1
      _ _ rfl (by decide),
   (stateGet_spec (.doc [("step_fetch", Val.bool true)]) "step_hash" (.bool false)).2.1
      _ rfl (by decide),
   (stateGet_spec .missing "step_fetch" (.bool false)).2.2.1,
   (stateGet_spec .corrupt "step_fetch" (.bool false)).2.2.2⟩

/-- C4 counterexample: `"zz"` is nonempty but not valid hexadecimal, and
`hamming "zz" "00"` raises (`int('zz', 16)` raises `ValueError`) instead
of returning a sentinel value. -/
theorem hamming_invalid_raises : hamming "zz" "00" = Except.error () := by decide

/-- C4 amended: when either hash string is *empty*, `hamming` returns the
sentinel 999, strictly larger than the clustering threshold 10, so such
a pair never matches; nonempty non-hexadecimal input raises instead. -/
theorem hamming_empty_sentinel (a b : String) (h : a = "" ∨ b = "") :
    hamming a b = .ok 999 ∧ 10 < 999 := by
  constructor
  · unfold hamming; rw [if_pos h]
  · norm_num

/-- Witness for the amended C4 at a concrete pair. -/
theorem hamming_empty_sentinel_witness :
    hamming "" "ff" = .ok 999 ∧ 10 < 999 :=
  hamming_empty_sentinel "" "ff" (Or.inl rfl)

/-- C3 counterexample: for a single record with phash `"ab"` scored
against the one-element set containing it, the code's uniqueness signal
contributes `3 / 2` (the record counts itself, `dup_count = 1`), while
the spec's `U / (1 + count)` with `count` counting only *other* records
gives 3.  The claim's formula disagrees with the code. -/
theorem uniqueness_counts_self :
    uniquenessContribution [("phash", Val.str "ab")] [[("phash", Val.str "ab")]] 3 = 3/2 ∧
    spec_uniqueness_contribution [("phash", Val.str "ab")] [[("phash", Val.str "ab")]] 3 = 3 ∧
    (3/2 : ℚ) ≠ 3 := by
  refine ⟨?_, ?_, by norm_num⟩
  · simp [uniquenessContribution, recGetD, recGet?, truthy, valEq, List.lookup]
    norm_num
  · simp [spec_uniqueness_contribution, recGetD, recGet?, List.lookup, List.erase]

/-- C3 amended: the uniqueness signal contributes `U / (1 + count)` where
`count` counts *all* records of the set whose phash compares equal to
the record's (the record itself included when it occurs in the set);
when the set is empty or the phash is falsy the count is skipped and
the contribution is the full weight `U`. -/
theorem uniqueness_contribution_eq (item : Rec) (items : List Rec) (U : ℚ) :
    uniquenessContribution item items U =
      if items ≠ [] ∧ truthy (recGetD item "phash" (.str "")) then
        U / (1 + (spec_uniqueness_count item items : ℚ))
      else U := by
  unfold uniquenessContribution spec_uniqueness_count
  dsimp only
  split_ifs with h
  · rw [one_div_mul_eq_div]
  · norm_num

/-- C6 counterexample: `compute_interest_score` raises when
`keywords_found` is present but `None` (`None.split` has no meaning and
the keyword block is not guarded by any `try`), and a record with *all*
signal inputs missing scores 5, not 0 (full uniqueness weight 3 plus
the +2 novelty bonus for zero reverse matches). -/
theorem compute_interest_score_failures :
    compute_interest_score [("keywords_found", Val.none)] [] (fun _ => Option.none) = Except.error () ∧
    compute_interest_score [] [] (fun _ => Option.none) = Except.ok 5 := by
  constructor
  · rfl
  · simp [compute_interest_score, keywordScore, uniquenessContribution, photoContribution,
      faceContribution, nsfwContribution, skinContribution, noveltyContribution, sumIntVDict,
      recGetD, recGet?, truthy, valEq, pyOr, pyInt, pyFloat, pyStr, lowerString, splitComma,
      splitCommaAux, List.lookup, pyRound2, roundHalfEven]
    norm_num [Int.fract]

/-- C6 amended: `compute_interest_score` never raises provided the
`keywords_found` field, when present, is a string; the `try`-guarded
signals degrade to 0 on failure, but missing inputs do not all
contribute 0 (uniqueness and novelty contribute positively on missing
inputs), and the scorer itself never drops a record — it always
produces a score under that proviso. -/
theorem compute_interest_score_total (item : Rec) (items : List Rec)
    (env : String → Option ℚ) (kw uw : ℚ)
    (h : recGet? item "keywords_found" = Option.none ∨
         ∃ s, recGet? item "keywords_found" = some (Val.str s)) :
    ∃ q, compute_interest_score item items env kw uw = .ok q := by
  unfold compute_interest_score recGetD
  rcases h with h | ⟨s, h⟩ <;> rw [h] <;> exact ⟨_, rfl⟩

/-- Witness for the amended C6 at a concrete record. -/
theorem compute_interest_score_total_witness :
    ∃ q, compute_interest_score [("phash", Val.str "ab")] []
      (fun _ => Option.none) 3 3 = .ok q :=
  compute_interest_score_total _ _ _ 3 3 (Or.inl (by decide))

/-- C7: the orchestrator loop realises the specified algorithm (stages
visited in list order; a stage whose `step_<name>` flag reads true is
skipped without running its executor; a failing stage stops the whole
run with its flag unset; a succeeding stage gets its flag set and
iteration continues); moreover the visited stages form a prefix of the
stage list, and after a failure of stage `n` the final state still has
`step_<n>` not reading true. -/
theorem runStages_spec (execOk : String → Bool) (stages : List String)
    (st st2 : List (String × Val)) (tr : List (String × StageOutcome))
    (h : runStages execOk stages st = (st2, tr)) :
    SpecRun execOk st stages st2 tr ∧
    (∃ k, tr.map Prod.fst = List.take k stages) ∧
    (∀ n, (n, StageOutcome.ranFailed) ∈ tr →
      truthy ((st2.lookup ("step_" ++ n)).getD (.bool false)) = false) := by
  induction stages generalizing st st2 tr with
  | nil =>
      simp only [runStages, Prod.mk.injEq] at h
      obtain ⟨rfl, rfl⟩ := h
      exact ⟨SpecRun.done st, ⟨0, rfl⟩, by simp⟩
  | cons n rest ih =>
      cases hflag : truthy ((st.lookup ("step_" ++ n)).getD (.bool false)) with
      | true =>
          rcases hrec : runStages execOk rest st with ⟨st3, tr3⟩
          simp only [runStages, hflag, hrec, if_true, Prod.mk.injEq] at h
          obtain ⟨rfl, rfl⟩ := h
          obtain ⟨hs, ⟨k, hk⟩, hf⟩ := ih st st3 tr3 hrec
          refine ⟨SpecRun.skip n rest hflag hs, ⟨k + 1, ?_⟩, ?_⟩
          · simp [hk]
          · intro m hm
            rcases List.mem_cons.mp hm with hm | hm
            · simp at hm
            · exact hf m hm
      | false =>
          cases hexec : execOk n with
          | true =>
              rcases hrec : runStages execOk rest (recSet st ("step_" ++ n) (.bool true))
                with ⟨st3, tr3⟩
              simp only [runStages, hflag, hexec, hrec, Bool.false_eq_true, if_false, if_true,
                Prod.mk.injEq] at h
              obtain ⟨rfl, rfl⟩ := h
              obtain ⟨hs, ⟨k, hk⟩, hf⟩ := ih _ st3 tr3 hrec
              refine ⟨SpecRun.step n rest hflag hexec hs, ⟨k + 1, ?_⟩, ?_⟩
              · simp [hk]
              · intro m hm
                rcases List.mem_cons.mp hm with hm | hm
                · simp at hm
                · exact hf m hm
          | false =>
              simp only [runStages, hflag, hexec, Bool.false_eq_true, if_false,
                Prod.mk.injEq] at h
              obtain ⟨rfl, rfl⟩ := h
              refine ⟨SpecRun.stop n rest hflag hexec, ⟨1, by simp⟩, ?_⟩
              intro m hm
              rcases List.mem_cons.mp hm with hm | hm
              · simp only [Prod.mk.injEq] at hm
                exact hm.1 ▸ hflag
              · simp at hm

/-- Witness for C7: the spec's resume example — with `step_fetch`
already recorded complete, the run skips `fetch` and executes only
`download`, marking it complete. -/
theorem runStages_spec_witness :
    SpecRun (fun _ => true) [("step_fetch", Val.bool true)] ["fetch", "download"]
      [("step_fetch", Val.bool true), ("step_download", Val.bool true)]
      [("fetch", .skipped), ("download", .ranOk)] :=
  (runStages_spec (fun _ => true) ["fetch", "download"] [("step_fetch", Val.bool true)]
    [("step_fetch", Val.bool true), ("step_download", Val.bool true)]
    [("fetch", .skipped), ("download", .ranOk)] (by decide)).1

/-- Every row the inner loop absorbs is within the threshold of the
seed. -/
theorem absorb_near (t : Nat) (seed : Row) :
    ∀ (todo : List Row) (used : List String) (ms : List Row) (used2 : List String),
    absorb t seed todo used = .ok (ms, used2) →
    ∀ M ∈ ms, ∃ d, hamming seed.phash M.phash = .ok d ∧ d ≤ t := by
  intro todo
  induction todo with
  | nil =>
      intro used ms used2 h M hM
      simp only [absorb, Except.ok.injEq, Prod.mk.injEq] at h
      obtain ⟨rfl, rfl⟩ := h
      simp at hM
  | cons s rest ih =>
      intro used ms used2 h M hM
      rw [absorb] at h
      by_cases hu : s.local_path ∈ used
      · rw [if_pos hu] at h
        exact ih _ _ _ h M hM
      · rw [if_neg hu] at h
        rcases hham : hamming seed.phash s.phash with e | d <;>
          rw [hham] at h <;> dsimp only at h
        · simp at h
        · by_cases hd : d ≤ t
          · rw [if_pos hd] at h
            rcases habs : absorb t seed rest (s.local_path :: used) with e | ⟨ms2, used3⟩ <;>
              rw [habs] at h <;> dsimp only at h
            · simp at h
            · simp only [Except.ok.injEq, Prod.mk.injEq] at h
              obtain ⟨rfl, rfl⟩ := h
              rcases List.mem_cons.mp hM with rfl | hM
              · exact ⟨d, hham, hd⟩
              · exact ih _ _ _ habs M hM
          · rw [if_neg hd] at h
            exact ih _ _ _ h M hM

/-- Every cluster the outer loop produces opens with its seed, and every
other member is within the threshold of that seed. -/
theorem clusterize_near (t : Nat) :
    ∀ (todo : List Row) (used : List String) (cls : List (List Row)) (used2 : List String),
    clusterize t todo used = .ok (cls, used2) →
    ∀ c ∈ cls, ∃ seed ms, c = seed :: ms ∧
      ∀ M ∈ ms, ∃ d, hamming seed.phash M.phash = .ok d ∧ d ≤ t := by
  intro todo
  induction todo with
  | nil =>
      intro used cls used2 h c hc
      simp only [clusterize, Except.ok.injEq, Prod.mk.injEq] at h
      obtain ⟨rfl, rfl⟩ := h
      simp at hc
  | cons r rest ih =>
      intro used cls used2 h c hc
      rw [clusterize] at h
      by_cases hu : r.local_path ∈ used
      · rw [if_pos hu] at h
        exact ih _ _ _ h c hc
      · rw [if_neg hu] at h
        rcases habs : absorb t r rest (r.local_path :: used) with e | ⟨ms, used3⟩ <;>
          rw [habs] at h <;> dsimp only at h
        · simp at h
        · rcases hrec : clusterize t rest used3 with e | ⟨cls2, used4⟩ <;>
            rw [hrec] at h <;> dsimp only at h
          · simp at h
          · simp only [Except.ok.injEq, Prod.mk.injEq] at h
            obtain ⟨rfl, rfl⟩ := h
            by_cases hlen : 1 < (r :: ms).length
            · rw [if_pos hlen] at hc
              rcases List.mem_cons.mp hc with rfl | hc
              · exact ⟨r, ms, rfl, absorb_near t r rest _ ms used3 habs⟩
              · exact ih _ _ _ hrec c hc
            · rw [if_neg hlen] at hc
              exact ih _ _ _ hrec c hc

/-- C2: for every input row sequence and threshold, every produced
cluster consists of a seed (its first member) followed by members whose
Hamming distance *to the seed* is at most the threshold; nothing is
claimed between two non-seed members. -/
theorem cluster_members_near_seed (t : Nat) (rows : List Row) (cls : List (List Row))
    (h : rowClusters t rows = .ok cls) :
    ∀ c ∈ cls, ∃ seed ms, c = seed :: ms ∧
      ∀ M ∈ ms, ∃ d, hamming seed.phash M.phash = .ok d ∧ d ≤ t := by
  unfold rowClusters at h
  rcases hrec : clusterize t rows [] with e | ⟨cls2, used⟩ <;>
    rw [hrec] at h <;> dsimp only at h
  · simp at h
  · simp only [Except.ok.injEq] at h
    subst h
    exact clusterize_near t rows [] cls2 used hrec

/-- Witness for C2: the spec's clustering example — two rows with
identical 64-bit phash cluster together at threshold 10, a third row 20
bits away stays out; the one produced cluster opens with its seed and
its member is within 10 bits of that seed. -/
theorem cluster_members_near_seed_witness :
    ∃ seed ms, [(⟨"a.jpg", "ffff0000ffff0000"⟩ : Row), ⟨"b.jpg", "ffff0000ffff0000"⟩]
        = seed :: ms ∧
      ∀ M ∈ ms, ∃ d, hamming seed.phash M.phash = .ok d ∧ d ≤ 10 :=
  cluster_members_near_seed 10
    [⟨"a.jpg", "ffff0000ffff0000"⟩, ⟨"b.jpg", "ffff0000ffff0000"⟩, ⟨"c.jpg", "0000ffff0ff00000"⟩]
    [[⟨"a.jpg", "ffff0000ffff0000"⟩, ⟨"b.jpg", "ffff0000ffff0000"⟩]] (by decide)
    [⟨"a.jpg", "ffff0000ffff0000"⟩, ⟨"b.jpg", "ffff0000ffff0000"⟩] (by decide)

/-- The inner loop only absorbs rows whose path is not yet used; it
marks exactly the absorbed paths. -/
theorem absorb_used (t : Nat) (seed : Row) :
    ∀ (todo : List Row) (used : List String) (ms : List Row) (used2 : List String),
    absorb t seed todo used = .ok (ms, used2) →
    (∀ x ∈ used, x ∈ used2) ∧
    (∀ M ∈ ms, M.local_path ∈ used2 ∧ M.local_path ∉ used) ∧
    (ms.map Row.local_path).Nodup ∧
    (∀ x ∈ used2, x ∈ used ∨ x ∈ ms.map Row.local_path) := by
  intro todo
  induction todo with
  | nil =>
      intro used ms used2 h
      simp only [absorb, Except.ok.injEq, Prod.mk.injEq] at h
      obtain ⟨rfl, rfl⟩ := h
      exact ⟨fun x hx => hx, by simp, by simp, fun x hx => Or.inl hx⟩
  | cons s rest ih =>
      intro used ms used2 h
      rw [absorb] at h
      by_cases hu : s.local_path ∈ used
      · rw [if_pos hu] at h
        exact ih _ _ _ h
      · rw [if_neg hu] at h
        rcases hham : hamming seed.phash s.phash with e | d <;>
          rw [hham] at h <;> dsimp only at h
        · simp at h
        · by_cases hd : d ≤ t
          · rw [if_pos hd] at h
            rcases habs : absorb t seed rest (s.local_path :: used) with e | ⟨ms2, used3⟩ <;>
              rw [habs] at h <;> dsimp only at h
            · simp at h
            · simp only [Except.ok.injEq, Prod.mk.injEq] at h
              obtain ⟨rfl, rfl⟩ := h
              obtain ⟨ha, hb, hc, hd2⟩ := ih _ _ _ habs
              refine ⟨?_, ?_, ?_, ?_⟩
              · exact fun x hx => ha x (List.mem_cons_of_mem _ hx)
              · intro M hM
                rcases List.mem_cons.mp hM with rfl | hM
                · exact ⟨ha _ (List.mem_cons_self _ _), hu⟩
                · exact ⟨(hb M hM).1,
                    fun hx => (hb M hM).2 (List.mem_cons_of_mem _ hx)⟩
              · simp only [List.map_cons, List.nodup_cons]
                refine ⟨?_, hc⟩
                intro hmem
                rcases List.mem_map.mp hmem with ⟨M, hM, hMp⟩
                exact (hb M hM).2 (hMp ▸ List.mem_cons_self _ _)
              · intro x hx
                rcases hd2 x hx with hx2 | hx2
                · rcases List.mem_cons.mp hx2 with rfl | hx2
                  · exact Or.inr (by simp)
                  · exact Or.inl hx2
                · exact Or.inr (by simp [hx2])
          · rw [if_neg hd] at h
            exact ih _ _ _ h

/-- The outer loop marks every path it outputs, never re-clusters a
marked path, and altogether outputs each path at most once. -/
theorem clusterize_paths (t : Nat) :
    ∀ (todo : List Row) (used : List String) (cls : List (List Row)) (used2 : List String),
    clusterize t todo used = .ok (cls, used2) →
    (∀ x ∈ used, x ∈ used2) ∧
    (∀ p ∈ cls.flatten.map Row.local_path, p ∈ used2 ∧ p ∉ used) ∧
    (cls.flatten.map Row.local_path).Nodup := by
  intro todo
  induction todo with
  | nil =>
      intro used cls used2 h
      simp only [clusterize, Except.ok.injEq, Prod.mk.injEq] at h
      obtain ⟨rfl, rfl⟩ := h
      exact ⟨fun x hx => hx, by simp, by simp⟩
  | cons r rest ih =>
      intro used cls used2 h
      rw [clusterize] at h
      by_cases hu : r.local_path ∈ used
      · rw [if_pos hu] at h
        exact ih _ _ _ h
      · rw [if_neg hu] at h
        rcases habs : absorb t r rest (r.local_path :: used) with e | ⟨ms, used3⟩ <;>
          rw [habs] at h <;> dsimp only at h
        · simp at h
        · rcases hrec : clusterize t rest used3 with e | ⟨cls2, used4⟩ <;>
            rw [hrec] at h <;> dsimp only at h
          · simp at h
          · simp only [Except.ok.injEq, Prod.mk.injEq] at h
            obtain ⟨rfl, rfl⟩ := h
            obtain ⟨ha, hb, hc, hd2⟩ := absorb_used t r rest _ ms used3 habs
            obtain ⟨hA, hB, hC⟩ := ih _ _ _ hrec
            have hrl : r.local_path ∈ used3 := ha _ (List.mem_cons_self _ _)
            have hused : ∀ x ∈ used, x ∈ used3 :=
              fun x hx => ha x (List.mem_cons_of_mem _ hx)
            by_cases hlen : 1 < (r :: ms).length
            · rw [if_pos hlen]
              refine ⟨fun x hx => hA x (hused x hx), ?_, ?_⟩
              · intro p hp
                simp only [List.flatten_cons, List.map_append, List.map_cons,
                  List.mem_append, List.mem_cons] at hp
                rcases hp with (rfl | hp) | hp
                · exact ⟨hA _ hrl, hu⟩
                · rcases List.mem_map.mp hp with ⟨M, hM, rfl⟩
                  exact ⟨hA _ (hb M hM).1,
                    fun hx => (hb M hM).2 (List.mem_cons_of_mem _ hx)⟩
                · exact ⟨(hB p hp).1, fun hx => (hB p hp).2 (hused p hx)⟩
              · simp only [List.flatten_cons, List.map_append, List.map_cons,
                  List.nodup_cons, List.nodup_append]
                refine ⟨⟨?_, hc⟩, hC, ?_⟩
                · intro hp
                  rcases List.mem_map.mp hp with ⟨M, hM, hMp⟩
                  exact (hb M hM).2 (hMp ▸ List.mem_cons_self _ _)
                · intro p hp hp2
                  rcases List.mem_cons.mp hp with rfl | hp
                  · exact (hB _ hp2).2 hrl
                  · rcases List.mem_map.mp hp with ⟨M, hM, rfl⟩
                    exact (hB _ hp2).2 (hb M hM).1
            · rw [if_neg hlen]
              refine ⟨fun x hx => hA x (hused x hx), ?_, hC⟩
              intro p hp
              exact ⟨(hB p hp).1, fun hx => (hB p hp).2 (hused p hx)⟩

/-- C10: record identity in the clusterer is `local_path` — across all
clusters the script outputs, each `local_path` value occurs at most
once (a path already assigned is skipped both as seed and as absorbed
member). -/
theorem cluster_paths_unique (t : Nat) (rows : List Row) (out : List (List String))
    (h : duplicate_clusters t rows = .ok out) : out.flatten.Nodup := by
  unfold duplicate_clusters rowClusters at h
  rcases hrec : clusterize t rows [] with e | ⟨cls2, used⟩ <;>
    rw [hrec] at h <;> dsimp only at h
  · simp at h
  · simp only [Except.ok.injEq] at h
    subst h
    have := (clusterize_paths t rows [] cls2 used hrec).2.2
    rw [← List.map_flatten]
    have heq : (fun c : List Row => List.map (fun r => r.local_path) c)
        = List.map Row.local_path := by
      funext c; rfl
    simpa [heq] using this

/-- Witness for C10: a later row re-using the path `a.jpg` is dropped
entirely, and the output paths are distinct. -/
theorem cluster_paths_unique_witness :
    List.Nodup (List.flatten [["a.jpg", "b.jpg"]]) :=
  cluster_paths_unique 10
    [⟨"a.jpg", "ffff0000ffff0000"⟩, ⟨"b.jpg", "ffff0000ffff0000"⟩,
     ⟨"a.jpg", "0000000000000000"⟩, ⟨"c.jpg", "0000ffff0ff00000"⟩]
    [["a.jpg", "b.jpg"]] (by decide)

/-- Annotating the interest score does not change the virality field. -/
theorem readVirality_annotate (it : Rec) (q : ℚ) :
    readVirality (annotateInterest it q) = readVirality it := by
  unfold readVirality annotateInterest recGetD
  rw [recGet?_recSet_ne _ _ _ _ (by decide)]

/-- The annotated record carries the score that was just attached. -/
theorem recGet?_annotate_self (it : Rec) (q : ℚ) :
    recGet? (annotateInterest it q) "_interest_score" = some (Val.rat q) :=
  recGet?_recSet_self it _ _

/-- The loop of the filter: the final list is the annotated input
(position by position, each record scored against the list as mutated
so far), and the kept list is exactly the sublist of annotated records
meeting the retention condition. -/
theorem filterGo_spec (env : String → Option ℚ) (T m : ℚ) :
    ∀ (todo done final kept : List Rec),
    filterGo env T m done todo = .ok (final, kept) →
    ∃ np, final = done ++ np ∧ np.length = todo.length ∧
      (∀ i, i < todo.length → ∃ orig q,
        todo[i]? = some orig ∧
        compute_interest_score orig ((done ++ np.take i) ++ todo.drop i) env = .ok q ∧
        np[i]? = some (annotateInterest orig q)) ∧
      kept.Sublist np ∧
      (∀ r, r ∈ kept ↔ r ∈ np ∧ KeepCond T m r) := by
  intro todo
  induction todo with
  | nil =>
      intro done final kept h
      simp only [filterGo, Except.ok.injEq, Prod.mk.injEq] at h
      obtain ⟨rfl, rfl⟩ := h
      exact ⟨[], by simp, rfl, by intro i hi; simp at hi, List.nil_sublist _, by simp⟩
  | cons it rest ih =>
      intro done final kept h
      rw [filterGo] at h
      rcases hvir : readVirality it with e | vir <;> rw [hvir] at h <;> dsimp only at h
      · simp at h
      · rcases hint : compute_interest_score it (done ++ it :: rest) env with e | q <;>
          rw [hint] at h <;> dsimp only at h
        · simp at h
        · rcases hrec : filterGo env T m (done ++ [annotateInterest it q]) rest
            with e | ⟨final2, kept2⟩ <;> rw [hrec] at h <;> dsimp only at h
          · simp at h
          · simp only [Except.ok.injEq, Prod.mk.injEq] at h
            obtain ⟨rfl, rfl⟩ := h
            obtain ⟨np2, hfin, hlen, hann, hsub, hmem⟩ := ih _ final2 kept2 hrec
            refine ⟨annotateInterest it q :: np2, ?_, ?_, ?_, ?_, ?_⟩
            · rw [hfin]; simp
            · simp [hlen]
            · intro i hi
              cases i with
              | zero =>
                  exact ⟨it, q, by simp, by simpa using hint, by simp⟩
              | succ j =>
                  have hj : j < rest.length := by simpa using hi
                  obtain ⟨orig, q2, h1, h2, h3⟩ := hann j hj
                  refine ⟨orig, q2, by simpa using h1, ?_, by simpa using h3⟩
                  simpa [List.append_assoc, List.singleton_append,
                    List.take_succ_cons, List.drop_succ_cons, List.cons_append] using h2
            · by_cases hcond : vir < T ∧ m ≤ q
              · rw [if_pos hcond]; exact hsub.cons₂ _
              · rw [if_neg hcond]; exact hsub.cons _
            · intro r
              by_cases hcond : vir < T ∧ m ≤ q
              · rw [if_pos hcond]
                constructor
                · intro hr
                  rcases List.mem_cons.mp hr with rfl | hr
                  · refine ⟨List.mem_cons_self _ _, vir, q, ?_, hcond.1, ?_, hcond.2⟩
                    · rw [readVirality_annotate]; exact hvir
                    · exact recGet?_annotate_self it q
                  · obtain ⟨hnp, hKC⟩ := (hmem r).mp hr
                    exact ⟨List.mem_cons_of_mem _ hnp, hKC⟩
                · rintro ⟨hrnp, hKC⟩
                  rcases List.mem_cons.mp hrnp with rfl | hrnp
                  · exact List.mem_cons_self _ _
                  · exact List.mem_cons_of_mem _ ((hmem r).mpr ⟨hrnp, hKC⟩)
              · rw [if_neg hcond]
                constructor
                · intro hr
                  obtain ⟨hnp, hKC⟩ := (hmem r).mp hr
                  exact ⟨List.mem_cons_of_mem _ hnp, hKC⟩
                · rintro ⟨hrnp, hKC⟩
                  rcases List.mem_cons.mp hrnp with rfl | hrnp
                  · exfalso
                    obtain ⟨v, q2, hv, hvT, hq, hmq⟩ := hKC
                    rw [readVirality_annotate, hvir] at hv
                    have hv2 : vir = v := by simpa using hv
                    rw [recGet?_annotate_self] at hq
                    have hq2 : q = q2 := by
                      have := Option.some.inj hq
                      simpa [Val.beq] using congrArg
                        (fun x => match x with | Val.rat y => y | _ => 0) this
                    exact hcond ⟨hv2 ▸ hvT, hq2 ▸ hmq⟩
                  · exact (hmem r).mpr ⟨hrnp, hKC⟩

/-- C9: the filter annotates every evaluated record in place — also the
ones it then rejects: the returned record list has one entry per input
record, each entry is the input record with `_interest_score` set to
the score computed for it (against the list as annotated so far), and
no other field of any input record changes. -/
theorem filter_annotates_all (items : List Rec) (env : String → Option ℚ)
    (T m : ℚ) (final out : List Rec)
    (h : filter_underreported_candidates items env T m = .ok (final, out)) :
    final.length = items.length ∧
    ∀ i, i < items.length → ∃ orig q,
      items[i]? = some orig ∧
      compute_interest_score orig (final.take i ++ items.drop i) env = .ok q ∧
      final[i]? = some (annotateInterest orig q) ∧
      recGet? (annotateInterest orig q) "_interest_score" = some (Val.rat q) ∧
      (∀ k, k ≠ "_interest_score" → recGet? (annotateInterest orig q) k = recGet? orig k) := by
  unfold filter_underreported_candidates at h
  rcases hgo : filterGo env T m [] items with e | ⟨final2, kept⟩ <;>
    rw [hgo] at h <;> dsimp only at h
  · simp at h
  · simp only [Except.ok.injEq, Prod.mk.injEq] at h
    obtain ⟨rfl, rfl⟩ := h
    obtain ⟨np, hfin, hlen, hann, _, _⟩ := filterGo_spec env T m items [] final2 kept hgo
    have hnp : np = final2 := by simpa using hfin.symm
    subst hnp
    refine ⟨hlen, ?_⟩
    intro i hi
    obtain ⟨orig, q, h1, h2, h3⟩ := hann i (hlen ▸ hi)
    exact ⟨orig, q, h1, by simpa using h2, h3, recGet?_annotate_self orig q,
      fun k hk => recGet?_recSet_ne orig _ k _ hk⟩

/-- Witness for C9 at a single concrete record (0.9 of a point below the
default interest threshold, so it is rejected — yet annotated). -/
theorem filter_annotates_all_witness :
    ([([("virality_score", Val.int 8), ("_interest_score", Val.rat 5)] : Rec)].length
        = [([("virality_score", Val.int 8)] : Rec)].length) ∧
    ∀ i, i < [([("virality_score", Val.int 8)] : Rec)].length → ∃ orig q,
      [([("virality_score", Val.int 8)] : Rec)][i]? = some orig ∧
      compute_interest_score orig
        ([([("virality_score", Val.int 8), ("_interest_score", Val.rat 5)] : Rec)].take i
          ++ [([("virality_score", Val.int 8)] : Rec)].drop i) (fun _ => Option.none) = .ok q ∧
      [([("virality_score", Val.int 8), ("_interest_score", Val.rat 5)] : Rec)][i]?
          = some (annotateInterest orig q) ∧
      recGet? (annotateInterest orig q) "_interest_score" = some (Val.rat q) ∧
      (∀ k, k ≠ "_interest_score" → recGet? (annotateInterest orig q) k = recGet? orig k) :=
  filter_annotates_all [[("virality_score", Val.int 8)]] (fun _ => Option.none) 5 3
    [[("virality_score", Val.int 8), ("_interest_score", Val.rat 5)]] [] (by
      simp [filter_underreported_candidates, filterGo, readVirality, annotateInterest,
        interestKey, sortedDesc, compute_interest_score, keywordScore, uniquenessContribution,
        photoContribution, faceContribution, nsfwContribution, skinContribution,
        noveltyContribution, sumIntVDict, recGetD, recGet?, recSet, truthy, valEq, pyOr,
        pyInt, pyFloat, pyStr, lowerString, splitComma, splitCommaAux, List.lookup,
        pyRound2, roundHalfEven, strongKeywords]
      norm_num [Int.fract])

/-- C1: a record is in the filter's output exactly when it is one of the
annotated records, its virality score converts to a value strictly
below the threshold, and its attached interest score is at least the
minimum — in particular no record with virality at or above the
threshold ever appears. -/
theorem filter_membership (items : List Rec) (env : String → Option ℚ)
    (T m : ℚ) (final out : List Rec)
    (h : filter_underreported_candidates items env T m = .ok (final, out)) :
    ∀ r, r ∈ out ↔ r ∈ final ∧ ∃ v q, readVirality r = .ok v ∧ v < T ∧
      recGet? r "_interest_score" = some (Val.rat q) ∧ m ≤ q := by
  unfold filter_underreported_candidates at h
  rcases hgo : filterGo env T m [] items with e | ⟨final2, kept⟩ <;>
    rw [hgo] at h <;> dsimp only at h
  · simp at h
  · simp only [Except.ok.injEq, Prod.mk.injEq] at h
    obtain ⟨rfl, rfl⟩ := h
    obtain ⟨np, hfin, _, _, _, hmem⟩ := filterGo_spec env T m items [] final2 kept hgo
    have hnp : np = final2 := by simpa using hfin.symm
    subst hnp
    intro r
    rw [sortedDesc, List.mem_mergeSort]
    exact hmem r

set_option maxRecDepth 4000 in
/-- Witness for C1: of two concrete records, the underreported one is in
the output and the viral one (virality 8 ≥ 5) is not. -/
theorem filter_membership_witness :
    ([("virality_score", Val.int 2), ("keywords_found", Val.str "video"),
      ("_interest_score", Val.rat 11)] : Rec)
        ∈ [([("virality_score", Val.int 2), ("keywords_found", Val.str "video"),
             ("_interest_score", Val.rat 11)] : Rec)] ↔
      ([("virality_score", Val.int 2), ("keywords_found", Val.str "video"),
        ("_interest_score", Val.rat 11)] : Rec)
        ∈ [([("virality_score", Val.int 2), ("keywords_found", Val.str "video"),
             ("_interest_score", Val.rat 11)] : Rec),
           [("virality_score", Val.int 8), ("_interest_score", Val.rat 5)]] ∧
      ∃ v q, readVirality [("virality_score", Val.int 2), ("keywords_found", Val.str "video"),
            ("_interest_score", Val.rat 11)] = .ok v ∧ v < 5 ∧
        recGet? [("virality_score", Val.int 2), ("keywords_found", Val.str "video"),
            ("_interest_score", Val.rat 11)] "_interest_score" = some (Val.rat q) ∧ 3 ≤ q :=
  filter_membership
    [[("virality_score", Val.int 2), ("keywords_found", Val.str "video")],
     [("virality_score", Val.int 8)]] (fun _ => Option.none) 5 3
    [[("virality_score", Val.int 2), ("keywords_found", Val.str "video"),
      ("_interest_score", Val.rat 11)],
     [("virality_score", Val.int 8), ("_interest_score", Val.rat 5)]]
    [[("virality_score", Val.int 2), ("keywords_found", Val.str "video"),
      ("_interest_score", Val.rat 11)]] (by
      simp [filter_underreported_candidates, filterGo, readVirality, annotateInterest,
        interestKey, sortedDesc, compute_interest_score, keywordScore, uniquenessContribution,
        photoContribution, faceContribution, nsfwContribution, skinContribution,
        noveltyContribution, sumIntVDict, recGetD, recGet?, recSet, truthy, valEq, pyOr,
        pyInt, pyFloat, pyStr, lowerString, splitComma, splitCommaAux, List.lookup,
        pyRound2, roundHalfEven, strongKeywords]
      norm_num [Int.fract])
    [("virality_score", Val.int 2), ("keywords_found", Val.str "video"),
     ("_interest_score", Val.rat 11)]

/-- C5: the filter's returned candidate list is the retained records
sorted descending by attached interest score by a *stable* sort: the
retained records are a sublist of the annotated input (so in input
order), and any two of them with equal scores keep that relative order
in the output (Python's `sorted` with `reverse=True` is stable). -/
theorem filter_sorted_stable (items : List Rec) (env : String → Option ℚ)
    (T m : ℚ) (final kept : List Rec)
    (h : filterGo env T m [] items = .ok (final, kept)) :
    filter_underreported_candidates items env T m = .ok (final, sortedDesc kept) ∧
    List.Pairwise (fun a b => interestKey b ≤ interestKey a) (sortedDesc kept) ∧
    kept.Sublist final ∧
    (∀ a b : Rec, interestKey a = interestKey b →
      List.Sublist [a, b] kept → List.Sublist [a, b] (sortedDesc kept)) := by
  have htrans : ∀ a b c : Rec, decide (interestKey b ≤ interestKey a) = true →
      decide (interestKey c ≤ interestKey b) = true →
      decide (interestKey c ≤ interestKey a) = true := by
    intro a b c hab hbc
    simp only [decide_eq_true_eq] at *
    exact le_trans hbc hab
  have htotal : ∀ a b : Rec,
      (decide (interestKey b ≤ interestKey a) || decide (interestKey a ≤ interestKey b)) = true := by
    intro a b
    simp only [Bool.or_eq_true, decide_eq_true_eq]
    exact le_total _ _
  refine ⟨?_, ?_, ?_, ?_⟩
  · unfold filter_underreported_candidates
    rw [h]
  · unfold sortedDesc
    exact (List.sorted_mergeSort htrans htotal kept).imp (fun hab => of_decide_eq_true hab)
  · obtain ⟨np, hfin, _, _, hsub, _⟩ := filterGo_spec env T m items [] final kept h
    have hnp : np = final := by simpa using hfin.symm
    exact hnp ▸ hsub
  · intro a b hkey hsub
    unfold sortedDesc
    refine List.sublist_mergeSort htrans htotal ?_ hsub
    simp [List.pairwise_cons, hkey]

set_option maxRecDepth 4000 in
/-- Witness for C5: two concrete retained records with scores 5 and 11
arrive in that input order and leave the sort as 11 then 5. -/
theorem filter_sorted_stable_witness :
    filter_underreported_candidates
        [[("virality_score", Val.int 2)],
         [("virality_score", Val.int 2), ("keywords_found", Val.str "video")]]
        (fun _ => Option.none) 5 3
      = .ok ([[("virality_score", Val.int 2), ("_interest_score", Val.rat 5)],
              [("virality_score", Val.int 2), ("keywords_found", Val.str "video"),
               ("_interest_score", Val.rat 11)]],
             sortedDesc [[("virality_score", Val.int 2), ("_interest_score", Val.rat 5)],
              [("virality_score", Val.int 2), ("keywords_found", Val.str "video"),
               ("_interest_score", Val.rat 11)]]) ∧
    List.Pairwise (fun a b => interestKey b ≤ interestKey a)
      (sortedDesc [[("virality_score", Val.int 2), ("_interest_score", Val.rat 5)],
        [("virality_score", Val.int 2), ("keywords_found", Val.str "video"),
         ("_interest_score", Val.rat 11)]]) ∧
    List.Sublist
      [([("virality_score", Val.int 2), ("_interest_score", Val.rat 5)] : Rec),
       [("virality_score", Val.int 2), ("keywords_found", Val.str "video"),
        ("_interest_score", Val.rat 11)]]
      [[("virality_score", Val.int 2), ("_interest_score", Val.rat 5)],
       [("virality_score", Val.int 2), ("keywords_found", Val.str "video"),
        ("_interest_score", Val.rat 11)]] ∧
    (∀ a b : Rec, interestKey a = interestKey b →
      List.Sublist [a, b]
        [[("virality_score", Val.int 2), ("_interest_score", Val.rat 5)],
         [("virality_score", Val.int 2), ("keywords_found", Val.str "video"),
          ("_interest_score", Val.rat 11)]] →
      List.Sublist [a, b]
        (sortedDesc [[("virality_score", Val.int 2), ("_interest_score", Val.rat 5)],
          [("virality_score", Val.int 2), ("keywords_found", Val.str "video"),
           ("_interest_score", Val.rat 11)]])) :=
  filter_sorted_stable
    [[("virality_score", Val.int 2)],
     [("virality_score", Val.int 2), ("keywords_found", Val.str "video")]]
    (fun _ => Option.none) 5 3
    [[("virality_score", Val.int 2), ("_interest_score", Val.rat 5)],
     [("virality_score", Val.int 2), ("keywords_found", Val.str "video"),
      ("_interest_score", Val.rat 11)]]
    [[("virality_score", Val.int 2), ("_interest_score", Val.rat 5)],
     [("virality_score", Val.int 2), ("keywords_found", Val.str "video"),
      ("_interest_score", Val.rat 11)]] (by
      simp [filterGo, readVirality, annotateInterest, compute_interest_score, keywordScore,
        uniquenessContribution, photoContribution, faceContribution, nsfwContribution,
        skinContribution, noveltyContribution, sumIntVDict, recGetD, recGet?, recSet, truthy,
        valEq, pyOr, pyInt, pyFloat, pyStr, lowerString, splitComma, splitCommaAux,
        List.lookup, pyRound2, roundHalfEven, strongKeywords]
      norm_num [Int.fract])

end MediaFinder
